import Mathlib

/-!
Verification development for the Tafseer-Bot dua search engine.

The JavaScript sources (`src/utils.js`, `src/search.js`, `src/bot.js`) are
shallowly embedded below.  JavaScript strings are modelled as `List Char`;
the Unicode-dependent character primitives used by `normalizeText`
(NFKD decomposition, the combining-diacritic range, `toLowerCase`, the
`\p{L}\p{N}` word-character classes and the `\s` whitespace class) are
modelled as explicit computable tables/range checks over `Char`.
Floating-point scores are modelled as exact rationals, asynchronous
supplier calls as an `Except` parameter, and the mutable session `Map`
as an explicit association list threaded through the session operations.
-/

namespace Tafseer

/-- JavaScript strings are modelled as lists of Unicode characters. -/
abbrev Str := List Char

/-- Convenience conversion from a Lean string literal to the model type. -/
def str (x : String) : Str := x.toList

/-! ### Character-level primitives behind `normalizeText` (src/utils.js) -/

/-- The combining diacritical marks stripped by the regex
`/[̀-ͯ]/g` in `normalizeText`. -/
def isCombiningMark (c : Char) : Bool :=
  decide (0x300 ≤ c.toNat ∧ c.toNat ≤ 0x36F)

/-- Model of the Unicode word characters `\p{L}` / `\p{N}` kept by the
regex `/[^\p{L}\p{N}\s]/gu` (ASCII letters and digits, the Latin-1 and
Latin-Extended letters with the two arithmetic signs removed, and the
Arabic letter and digit ranges used by the corpus). -/
def isWordChar (c : Char) : Bool :=
  decide ((48 ≤ c.toNat ∧ c.toNat ≤ 57) ∨
    (65 ≤ c.toNat ∧ c.toNat ≤ 90) ∨
    (97 ≤ c.toNat ∧ c.toNat ≤ 122) ∨
    (0xC0 ≤ c.toNat ∧ c.toNat ≤ 0x24F ∧ c.toNat ≠ 0xD7 ∧ c.toNat ≠ 0xF7) ∨
    (0x621 ≤ c.toNat ∧ c.toNat ≤ 0x64A) ∨
    (0x660 ≤ c.toNat ∧ c.toNat ≤ 0x669) ∨
    (0x679 ≤ c.toNat ∧ c.toNat ≤ 0x6D3))

/-- Model of the JavaScript regex class `\s` (the whitespace characters
recognised by `.replace(/\s+/g, " ")` and `.trim()`). -/
def isSpaceJS (c : Char) : Bool :=
  decide (c.toNat = 0x20 ∨ (0x9 ≤ c.toNat ∧ c.toNat ≤ 0xD) ∨ c.toNat = 0xA0 ∨
    c.toNat = 0x1680 ∨ (0x2000 ≤ c.toNat ∧ c.toNat ≤ 0x200A) ∨
    c.toNat = 0x2028 ∨ c.toNat = 0x2029 ∨ c.toNat = 0x202F ∨
    c.toNat = 0x205F ∨ c.toNat = 0x3000 ∨ c.toNat = 0xFEFF)

/-- Model of `String.prototype.toLowerCase` restricted to the simple
ASCII case mappings. -/
def jsLowerChar (c : Char) : Char :=
  if 65 ≤ c.toNat ∧ c.toNat ≤ 90 then Char.ofNat (c.toNat + 32) else c

/-- Model of per-character NFKD decomposition (`String.prototype.normalize`
with argument `"NFKD"`): a finite table of decomposable characters used by
the corpus; every character outside the table is its own decomposition. -/
def nfkdChar (c : Char) : List Char :=
  if c = 'á' then ['a', '\u0301']
  else if c = 'é' then ['e', '\u0301']
  else if c = 'í' then ['i', '\u0301']
  else if c = 'ó' then ['o', '\u0301']
  else if c = 'ú' then ['u', '\u0301']
  else if c = 'Á' then ['A', '\u0301']
  else if c = 'É' then ['E', '\u0301']
  else if c = 'ñ' then ['n', '\u0303']
  else if c = 'ü' then ['u', '\u0308']
  else if c = 'ç' then ['c', '\u0327']
  else if c = 'ﬁ' then ['f', 'i']
  else [c]

/-- NFKD decomposition of a whole string. -/
def nfkdStr : Str → Str
  | [] => []
  | c :: rest => nfkdChar c ++ nfkdStr rest

/-- One character step of `.replace(/[^\p{L}\p{N}\s]/gu, " ")`:
word characters and whitespace survive, everything else becomes a space. -/
def replaceNonWord (c : Char) : Char :=
  if isWordChar c || isSpaceJS c then c else ' '

/-- Accumulator pass of `.replace(/\s+/g, " ")`: the flag records whether
the previous character belonged to a whitespace run. -/
def collapseAux : Bool → Str → Str
  | _, [] => []
  | prevSpace, c :: rest =>
    if isSpaceJS c then
      if prevSpace then collapseAux true rest
      else ' ' :: collapseAux true rest
    else c :: collapseAux false rest

/-- `.replace(/\s+/g, " ")`: collapse every whitespace run to one space. -/
def collapseWs (s : Str) : Str := collapseAux false s

/-- `String.prototype.trim`: drop leading and trailing whitespace. -/
def trimStr (s : Str) : Str :=
  ((s.dropWhile isSpaceJS).reverse.dropWhile isSpaceJS).reverse

/-- `normalizeText` from src/utils.js: NFKD-decompose, strip combining
diacritics, lower-case, replace non letter/digit/whitespace characters by
a space, collapse whitespace runs and trim. -/
def normalizeText (text : Str) : Str :=
  trimStr (collapseWs (List.map replaceNonWord
    (List.map jsLowerChar ((nfkdStr text).filter (fun c => !isCombiningMark c)))))

/-- `.split(" ")` with an accumulator for the current fragment
(the accumulator is kept reversed). -/
def splitOnSpaceAcc : Str → Str → List Str
  | acc, [] => [acc.reverse]
  | acc, c :: rest =>
    if c = ' ' then acc.reverse :: splitOnSpaceAcc [] rest
    else splitOnSpaceAcc (c :: acc) rest

/-- `tokenizeWords` from src/utils.js: normalize, split on single spaces
and drop empty fragments. -/
def tokenizeWords (text : Str) : List Str :=
  ((splitOnSpaceAcc [] (normalizeText text)).filter (fun t => !t.isEmpty))

/-! ### Query expansion (src/search.js) -/

/-- The fixed stop-word set `QUERY_STOP_WORDS`. -/
def QUERY_STOP_WORDS : List Str :=
  [str "ki", str "ka", str "ke", str "dua", str "duaon", str "for",
   str "the", str "a", str "an"]

/-- The static alias object `QUERY_ALIASES`, modelled as an association
table from tokens to synonym lists. -/
def QUERY_ALIAS_TABLE : List (Str × List Str) :=
  [(str "safar", [str "travel", str "journey", str "trip"]),
   (str "travel", [str "safar", str "journey"]),
   (str "sone", [str "sleep", str "night"]),
   (str "neend", [str "sleep", str "night"]),
   (str "subah", [str "morning"]),
   (str "shaam", [str "evening"]),
   (str "evening", [str "shaam"]),
   (str "morning", [str "subah"]),
   (str "rizq", [str "rozi", str "provision", str "money", str "wealth"]),
   (str "rozi", [str "rizq", str "provision", str "money"]),
   (str "riza", [str "rizq", str "rozi", str "provision"]),
   (str "astagfar", [str "astaghfar", str "istighfar", str "forgiveness"]),
   (str "astaghfar", [str "istighfar", str "forgiveness"]),
   (str "istigfar", [str "istighfar", str "forgiveness"]),
   (str "anxiety", [str "stress", str "worry", str "distress"]),
   (str "pareshani", [str "anxiety", str "stress", str "worry"]),
   (str "udasi", [str "sadness", str "grief"]),
   (str "khauf", [str "fear", str "afraid"]),
   (str "gussa", [str "anger"]),
   (str "hifazat", [str "protection", str "safety"]),
   (str "shifa", [str "health", str "healing"])]

/-- `QUERY_ALIASES[token]`, the property lookup on the alias object
(an absent key yields no aliases, like the source's `undefined` guard). -/
def QUERY_ALIASES (token : Str) : List Str :=
  match QUERY_ALIAS_TABLE.find? (fun p => p.1 == token) with
  | some p => p.2
  | none => []

/-- A JavaScript `Set` is modelled as a duplicate-free list in insertion
order; `setAdd` is `Set.prototype.add`. -/
def setAdd (l : List Str) (x : Str) : List Str :=
  if x ∈ l then l else l ++ [x]

/-- The root tokens of `buildQueryTokens`: normalize the query, tokenize
it, drop stop words, and fall back to the unfiltered tokens when every
token was a stop word. -/
def rootQueryTokens (queryText : Str) : List Str :=
  let normalized := normalizeText queryText
  let rawTokens := tokenizeWords normalized
  let baseTokens := rawTokens.filter (fun t => !QUERY_STOP_WORDS.contains t)
  if baseTokens.length > 0 then baseTokens else rawTokens

/-- `buildQueryTokens` from src/search.js: the root tokens together with
the normalized aliases of every root token, as a `Set` in insertion
order. -/
def buildQueryTokens (queryText : Str) : List Str :=
  let rootTokens := rootQueryTokens queryText
  let expanded := rootTokens.foldl setAdd []
  rootTokens.foldl (fun acc token =>
    (QUERY_ALIASES token).foldl (fun acc2 aliasWord =>
      let aliasNormalized := normalizeText aliasWord
      if aliasNormalized.isEmpty then acc2 else setAdd acc2 aliasNormalized) acc)
    expanded

/-! ### Levenshtein distance and near matching (src/search.js) -/

/-- Cell `(i, j)` of the dynamic-programming matrix filled by
`levenshteinDistance`: the borders are `i` and `j` and the interior is the
minimum of the three neighbour cells, with unit cost on a character
mismatch.  The fuel argument makes the recursion structural; every call
from `levenshteinDistance` keeps `i + j ≤ fuel`, so the fuel-exhausted
branch is never taken there. -/
def levCell (a b : Str) : ℕ → ℕ → ℕ → ℕ
  | 0, i, j => i + j
  | _ + 1, 0, j => j
  | _ + 1, i + 1, 0 => i + 1
  | fuel + 1, i + 1, j + 1 =>
    let cost := if a.get? i = b.get? j then 0 else 1
    min (min (levCell a b fuel i (j + 1) + 1) (levCell a b fuel (i + 1) j + 1))
      (levCell a b fuel i j + cost)

/-- `levenshteinDistance` from src/search.js. -/
def levenshteinDistance (a b : Str) : ℕ :=
  if a = b then 0
  else if a.isEmpty then b.length
  else if b.isEmpty then a.length
  else levCell a b (a.length + b.length) a.length b.length

/-- `isNearTokenMatch` from src/search.js: equality, prefix in either
direction, or Levenshtein distance within 1 (2 for query tokens of length
at least 7), behind a length-difference early reject. -/
def isNearTokenMatch (queryToken candidateToken : Str) : Bool :=
  if queryToken.isEmpty || candidateToken.isEmpty then false
  else if queryToken = candidateToken then true
  else if candidateToken.isPrefixOf queryToken || queryToken.isPrefixOf candidateToken then true
  else
    let maxDistance := if queryToken.length ≥ 7 then 2 else 1
    if queryToken.length - candidateToken.length > maxDistance ∨
        candidateToken.length - queryToken.length > maxDistance then false
    else decide (levenshteinDistance queryToken candidateToken ≤ maxDistance)

/-! ### Candidate records and the primary scorer (src/search.js) -/

/-- A `DUA_MASTER` record as consumed by the search engine; absent fields
are the empty string. -/
structure Dua where
  id : Str := []
  chapter_title_en : Str := []
  category : Str := []
  arabic : Str := []
  english : Str := []
  urdu : Str := []
  raw_text : Str := []
  keywords_en : Str := []
  keywords_ur : Str := []
  keywords_roman : Str := []
  keywords_ar : Str := []
  tags : Str := []
  search_blob : Str := []
deriving DecidableEq, Repr

instance : Inhabited Dua := ⟨{}⟩

/-- `Array.prototype.join(" ")`. -/
def joinSpace (parts : List Str) : Str := List.intercalate [' '] parts

/-- `value.includes(sub)` on JavaScript strings: substring containment. -/
def strIncludes (value sub : Str) : Bool := decide (sub <:+: value)

/-- `makeTokenSet` from src/search.js (`new Set(tokenizeWords(text))`);
only membership in the set is ever used. -/
def makeTokenSet (text : Str) : List Str := (tokenizeWords text).dedup

/-- The normalized field views that `scoreDua` derives from a record. -/
structure DuaFields where
  chapter : Str
  category : Str
  arabic : Str
  english : Str
  rawText : Str
  keywords : Str
  searchBlob : Str

/-- The field normalization performed at the top of `scoreDua`
(including the `search_blob` fallback to the joined fields). -/
def duaFields (dua : Dua) : DuaFields where
  chapter := normalizeText dua.chapter_title_en
  category := normalizeText dua.category
  arabic := normalizeText dua.arabic
  english := normalizeText dua.english
  rawText := normalizeText dua.raw_text
  keywords := normalizeText (joinSpace
    [dua.keywords_en, dua.keywords_ur, dua.keywords_roman, dua.keywords_ar, dua.tags])
  searchBlob := normalizeText (if dua.search_blob.isEmpty then
      joinSpace [dua.chapter_title_en, dua.category, dua.english, dua.arabic,
        dua.keywords_en, dua.keywords_ur, dua.keywords_roman, dua.keywords_ar, dua.tags]
    else dua.search_blob)

/-- The per-token body of the scoring loop in `scoreDua`: the accumulator
carries the running score and the count of matched tokens, the local flag
mirrors `tokenMatched`. -/
def scoreTokenStep (f : DuaFields) (acc : ℚ × ℕ) (token : Str) : ℚ × ℕ :=
  let score := acc.1
  let m := false
  let (score, m) :=
    if token ∈ makeTokenSet f.keywords then (score + 11, true) else (score, m)
  let (score, m) :=
    if token ∈ makeTokenSet f.category ∨ token ∈ makeTokenSet f.chapter then
      (score + 9, true) else (score, m)
  let (score, m) :=
    if token ∈ makeTokenSet f.arabic ∨ token ∈ makeTokenSet f.english then
      (score + 7, true) else (score, m)
  let (score, m) :=
    if token ∈ makeTokenSet f.searchBlob then (score + 4, true) else (score, m)
  let (score, m) :=
    if token ∈ makeTokenSet f.rawText then (score + 3, true) else (score, m)
  (score, if m then acc.2 + 1 else acc.2)

/-- `scoreDua` from src/search.js (scores as exact rationals). -/
def scoreDua (queryNormalized : Str) (queryTokens : List Str) (dua : Dua) : ℚ :=
  let f := duaFields dua
  let score : ℚ :=
    (if strIncludes f.searchBlob queryNormalized then 36 else 0) +
    (if strIncludes f.keywords queryNormalized then 28 else 0) +
    (if strIncludes f.chapter queryNormalized ∨ strIncludes f.category queryNormalized
      then 20 else 0) +
    (if strIncludes f.rawText queryNormalized then 16 else 0)
  let (score, matchedTokens) := queryTokens.foldl (scoreTokenStep f) (score, 0)
  if queryTokens.length > 0 then
    score + ((matchedTokens : ℚ) / (queryTokens.length : ℚ)) * 18
  else score

/-! ### Ranking, the relaxed fallback and `searchDuaMaster` (src/search.js) -/

/-- The options bag of `searchDuaMaster`; `limit` is `none` when absent or
not an integer. -/
structure SearchOptions where
  limit : Option ℤ := none

/-- `Number.isInteger(options.limit) && options.limit > 0 ? options.limit : 3`. -/
def effectiveLimit (options : SearchOptions) : ℕ :=
  match options.limit with
  | some n => if n > 0 then n.toNat else 3
  | none => 3

/-- A candidate together with its score (`{ dua, score }`). -/
structure ScoredDua where
  dua : Dua
  score : ℚ
deriving DecidableEq

/-- Lexicographic (code-point) string order, the model of
`String.prototype.localeCompare` as used for the identifier tie-break. -/
def lexLE : Str → Str → Bool
  | [], _ => true
  | _ :: _, [] => false
  | a :: as, b :: bs =>
    decide (a.toNat < b.toNat) || (a = b && lexLE as bs)

/-- The sort comparator of `searchDuaMaster` expressed as a
before-or-equal test: higher score first, identifier order on ties. -/
def scoredLE (a b : ScoredDua) : Bool :=
  if a.score = b.score then lexLE a.dua.id b.dua.id
  else decide (b.score < a.score)

/-- Sorting plus `slice(0, limit).map((item) => item.dua)`, shared by the
primary and relaxed branches of `searchDuaMaster`. -/
def rankAndTake (limit : ℕ) (scored : List ScoredDua) : List Dua :=
  ((scored.mergeSort scoredLE).take limit).map (fun item => item.dua)

/-- The primary scoring loop of `searchDuaMaster`: every candidate with a
positive `scoreDua` score survives. -/
def primaryScoredList (queryNormalized : Str) (queryTokens : List Str)
    (masterRows : List Dua) : List ScoredDua :=
  masterRows.filterMap (fun dua =>
    let score := scoreDua queryNormalized queryTokens dua
    if score ≤ 0 then none else some ⟨dua, score⟩)

/-- The concatenated haystack built by the relaxed fallback stage. -/
def relaxedHaystack (dua : Dua) : Str :=
  normalizeText (joinSpace
    [dua.chapter_title_en, dua.category, dua.arabic, dua.english, dua.urdu,
     dua.keywords_en, dua.keywords_ur, dua.keywords_roman, dua.keywords_ar,
     dua.tags, dua.search_blob, dua.raw_text])

/-- The per-candidate score of the relaxed fallback stage: +5 for a
literal substring hit, otherwise +2.5 for a near-token match, at most one
bonus per query token. -/
def relaxedScore (queryTokens : List Str) (haystack : Str) (hayTokens : List Str) : ℚ :=
  queryTokens.foldl (fun score token =>
    if strIncludes haystack token then score + 5
    else if hayTokens.any (fun candidate => isNearTokenMatch token candidate) then
      score + 2.5
    else score) 0

/-- The relaxed scoring loop of `searchDuaMaster`: candidates with an
empty haystack are skipped, and only positive scores survive. -/
def relaxedScoredList (queryTokens : List Str) (masterRows : List Dua) : List ScoredDua :=
  masterRows.filterMap (fun dua =>
    let haystack := relaxedHaystack dua
    if haystack.isEmpty then none
    else
      let hayTokens := tokenizeWords haystack
      let score := relaxedScore queryTokens haystack hayTokens
      if score > 0 then some ⟨dua, score⟩ else none)

/-- The scoring/ranking core of `searchDuaMaster` (everything after the
input guards): rank the primary survivors, falling back to the relaxed
matcher when there are none. -/
def searchCore (queryNormalized : Str) (queryTokens : List Str)
    (masterRows : List Dua) (limit : ℕ) : List Dua :=
  let scored := primaryScoredList queryNormalized queryTokens masterRows
  if scored.length > 0 then rankAndTake limit scored
  else rankAndTake limit (relaxedScoredList queryTokens masterRows)

/-- `searchDuaMaster` from src/search.js.  The asynchronous
`getDuaMasterRows()` supplier is a parameter: `Except.error` models a
rejected promise (which propagates — the function body has no handler),
`Except.ok none` a non-array result, `Except.ok (some rows)` a normal
result.  The query guards run before the supplier is consulted, exactly
as in the source. -/
def searchDuaMaster (queryText : Str) (supplier : Except Unit (Option (List Dua)))
    (options : SearchOptions) : Except Unit (List Dua) :=
  let limit := effectiveLimit options
  let queryNormalized := normalizeText queryText
  let queryTokens := buildQueryTokens queryNormalized
  if queryNormalized.isEmpty || queryTokens.isEmpty then .ok []
  else
    match supplier with
    | .error e => .error e
    | .ok none => .ok []
    | .ok (some masterRows) =>
      if masterRows.length = 0 then .ok []
      else .ok (searchCore queryNormalized queryTokens masterRows limit)

/-! ### The session manager (src/search.js) -/

/-- `SEARCH_STATE_TTL_MS = 15 * 60 * 1000`. -/
def SEARCH_STATE_TTL_MS : ℕ := 15 * 60 * 1000

/-- The two conversation stages. -/
inductive SearchStage where
  | awaiting_query
  | awaiting_selection
deriving DecidableEq, Repr

/-- One session record of the in-memory `stateMap`. -/
structure SearchSession where
  stage : SearchStage
  options : List Dua
  updatedAt : ℕ
deriving DecidableEq, Repr

/-- The mutable `stateMap` is modelled as an association list from keys to
sessions, threaded explicitly through the operations. -/
abbrev SessionStore := List (Str × SearchSession)

/-- Map lookup. -/
def storeGet (key : Str) : SessionStore → Option SearchSession
  | [] => none
  | (k, v) :: rest => if k = key then some v else storeGet key rest

/-- Map deletion. -/
def storeDelete (key : Str) : SessionStore → SessionStore
  | [] => []
  | (k, v) :: rest =>
    if k = key then storeDelete key rest else (k, v) :: storeDelete key rest

/-- Map insertion/overwrite. -/
def storeSet (key : Str) (v : SearchSession) (store : SessionStore) : SessionStore :=
  (key, v) :: storeDelete key store

/-- `makeSessionKey` from src/search.js; an empty `userId` models a falsy
one, for which the chat id is substituted. -/
def makeSessionKey (chatId userId : Str) : Str :=
  chatId ++ ':' :: (if userId.isEmpty then chatId else userId)

/-- `beginDuaSearch`: unconditionally store a fresh `awaiting_query`
session stamped with the current time. -/
def beginDuaSearch (chatId userId : Str) (now : ℕ) (store : SessionStore) : SessionStore :=
  storeSet (makeSessionKey chatId userId)
    { stage := .awaiting_query, options := [], updatedAt := now } store

/-- `setDuaSelectionState`: store an `awaiting_selection` session holding
the offered options. -/
def setDuaSelectionState (chatId userId : Str) (options : List Dua) (now : ℕ)
    (store : SessionStore) : SessionStore :=
  storeSet (makeSessionKey chatId userId)
    { stage := .awaiting_selection, options := options, updatedAt := now } store

/-- `getDuaSearchState`: return the stored session unless it is absent or
older than the TTL; an expired session is deleted on this read.  The
returned store is the (possibly mutated) map. -/
def getDuaSearchState (chatId userId : Str) (now : ℕ) (store : SessionStore) :
    Option SearchSession × SessionStore :=
  let key := makeSessionKey chatId userId
  match storeGet key store with
  | none => (none, store)
  | some current =>
    if (now : ℤ) - (current.updatedAt : ℤ) > (SEARCH_STATE_TTL_MS : ℤ) then
      (none, storeDelete key store)
    else (some current, store)

/-- `clearDuaSearchState`: unconditionally remove the session. -/
def clearDuaSearchState (chatId userId : Str) (store : SessionStore) : SessionStore :=
  storeDelete (makeSessionKey chatId userId) store

/-! ### The `awaiting_query` message-handler branch (src/bot.js) -/

/-- The user-visible outcome of the `awaiting_query` branch of the
message handler; the constructors correspond to the four distinct replies
the branch can send. -/
inductive BotReply where
  | noMatch
  | fullDua (dua : Dua)
  | optionsList (duas : List Dua)
  | searchFailed
deriving DecidableEq, Repr

/-- The `awaiting_query` branch of the `bot.on("message")` handler in
src/bot.js: fetch all candidates (the supplier may fail), rank them
(`rank` abstracts the ranking call), then answer with no-match, the
single match (clearing the session), or up to three options (moving the
session to `awaiting_selection`).  A supplier failure is caught and
answered with the retry reply, touching nothing else. -/
def handleAwaitingQuery (rank : List Dua → Str → List Dua) (chatId userId : Str)
    (now : ℕ) (text : Str) (supplier : Except Unit (List Dua))
    (store : SessionStore) : BotReply × SessionStore :=
  match supplier with
  | .error _ => (.searchFailed, store)
  | .ok duas =>
    match rank duas text with
    | [] => (.noMatch, store)
    | [only] => (.fullDua only, clearDuaSearchState chatId userId store)
    | found =>
      let topOptions := found.take 3
      (.optionsList topOptions, setDuaSelectionState chatId userId topOptions now store)

/-! ### Reference definitions written from the specification (§4.3–§4.5),
to be compared with the embedded source functions. -/

/-- §4.3 flat bonuses: +36/+28/+20/+16 when the full normalized query is
a substring of the blob / keywords / title-or-category / raw text. -/
def specFlatBonus (f : DuaFields) (queryNormalized : Str) : ℚ :=
  (if strIncludes f.searchBlob queryNormalized then 36 else 0) +
  (if strIncludes f.keywords queryNormalized then 28 else 0) +
  (if strIncludes f.chapter queryNormalized ∨ strIncludes f.category queryNormalized
    then 20 else 0) +
  (if strIncludes f.rawText queryNormalized then 16 else 0)

/-- §4.3 per-token bonuses: +11 keyword hit, +9 title-or-category hit
(counted once), +7 primary/secondary text hit, +4 blob hit, +3 raw hit. -/
def specTokenBonus (f : DuaFields) (token : Str) : ℚ :=
  (if token ∈ makeTokenSet f.keywords then 11 else 0) +
  (if token ∈ makeTokenSet f.category ∨ token ∈ makeTokenSet f.chapter then 9 else 0) +
  (if token ∈ makeTokenSet f.arabic ∨ token ∈ makeTokenSet f.english then 7 else 0) +
  (if token ∈ makeTokenSet f.searchBlob then 4 else 0) +
  (if token ∈ makeTokenSet f.rawText then 3 else 0)

/-- §4.3: a token counts as matched when it triggered any per-token bonus. -/
def specTokenHit (f : DuaFields) (token : Str) : Bool :=
  decide (token ∈ makeTokenSet f.keywords ∨
    (token ∈ makeTokenSet f.category ∨ token ∈ makeTokenSet f.chapter) ∨
    (token ∈ makeTokenSet f.arabic ∨ token ∈ makeTokenSet f.english) ∨
    token ∈ makeTokenSet f.searchBlob ∨ token ∈ makeTokenSet f.rawText)

/-- The §4.3 reference score: flat bonuses, plus the per-token bonuses,
plus the coverage bonus `(matched / total) * 18`. -/
def scoreDuaSpec (queryNormalized : Str) (queryTokens : List Str) (dua : Dua) : ℚ :=
  let f := duaFields dua
  specFlatBonus f queryNormalized +
    (queryTokens.map (specTokenBonus f)).sum +
    ((queryTokens.countP (specTokenHit f) : ℚ) / (queryTokens.length : ℚ)) * 18

/-- The §4.4 reference fallback score: sum over query tokens of +5 for a
literal substring hit, else +2.5 for a near match, else 0. -/
def relaxedScoreSpec (queryTokens : List Str) (haystack : Str)
    (hayTokens : List Str) : ℚ :=
  (queryTokens.map (fun token =>
    if strIncludes haystack token then (5 : ℚ)
    else if hayTokens.any (fun candidate => isNearTokenMatch token candidate) then 2.5
    else 0)).sum

/-- The §4.5 reference ranking order: strictly higher score first, exact
score ties broken by the lexicographically first identifier. -/
def scoredBefore (a b : ScoredDua) : Prop :=
  b.score < a.score ∨ (a.score = b.score ∧ lexLE a.dua.id b.dua.id = true)

instance : DecidableRel scoredBefore := fun a b => by
  unfold scoredBefore; infer_instance

/-- The character shape of `normalizeText` output: a word character or a
single space, stable under each stage of the pipeline. -/
def normalChar (c : Char) : Prop :=
  (isWordChar c = true ∨ c = ' ') ∧ nfkdChar c = [c] ∧ jsLowerChar c = c ∧
    isCombiningMark c = false ∧ (isSpaceJS c = true → c = ' ')

/-- Adjacent-character invariant of collapsed text: no two consecutive
spaces. -/
def noDoubleSpace (a b : Char) : Prop := ¬(a = ' ' ∧ b = ' ')

end Tafseer

namespace Tafseer

/-! ## Session-store lemmas and the session claims -/

theorem storeGet_storeDelete_self (k : Str) (st : SessionStore) :
    storeGet k (storeDelete k st) = none := by
  induction st with
  | nil => rfl
  | cons p rest ih =>
    obtain ⟨k', v⟩ := p
    by_cases h : k' = k
    · simpa [storeDelete, h] using ih
    · simpa [storeDelete, storeGet, h] using ih

theorem storeGet_storeDelete_ne {k k' : Str} (h : k' ≠ k) (st : SessionStore) :
    storeGet k' (storeDelete k st) = storeGet k' st := by
  have hkk : k ≠ k' := fun hc => h hc.symm
  induction st with
  | nil => rfl
  | cons p rest ih =>
    obtain ⟨k0, v⟩ := p
    by_cases h0 : k0 = k
    · subst h0
      simpa [storeDelete, storeGet, hkk] using ih
    · by_cases h1 : k0 = k'
      · simp [storeDelete, storeGet, h, h0, h1]
      · simpa [storeDelete, storeGet, h0, h1] using ih

theorem storeGet_storeSet_self (k : Str) (v : SearchSession) (st : SessionStore) :
    storeGet k (storeSet k v st) = some v := by
  simp [storeSet, storeGet]

theorem storeGet_storeSet_ne {k k' : Str} (h : k' ≠ k) (v : SearchSession)
    (st : SessionStore) :
    storeGet k' (storeSet k v st) = storeGet k' st := by
  have hne : k ≠ k' := fun hc => h hc.symm
  simp only [storeSet, storeGet, hne, if_false]
  exact storeGet_storeDelete_ne h st

/-- C6: `get` returns the stored session exactly when it is present and at
most 15 minutes old; an expired session is deleted by the read (and only
the read key is ever touched), and a subsequent `begin` stores a fresh
`awaiting_query` session with empty options stamped `now`. -/
theorem session_ttl_contract :
    (∀ chatId userId (now : ℕ) store s,
        storeGet (makeSessionKey chatId userId) store = some s →
        (now : ℤ) - (s.updatedAt : ℤ) ≤ (SEARCH_STATE_TTL_MS : ℤ) →
        getDuaSearchState chatId userId now store = (some s, store)) ∧
    (∀ chatId userId (now : ℕ) store s,
        storeGet (makeSessionKey chatId userId) store = some s →
        (now : ℤ) - (s.updatedAt : ℤ) > (SEARCH_STATE_TTL_MS : ℤ) →
        getDuaSearchState chatId userId now store =
          (none, storeDelete (makeSessionKey chatId userId) store) ∧
        storeGet (makeSessionKey chatId userId)
          (getDuaSearchState chatId userId now store).2 = none) ∧
    (∀ chatId userId (now : ℕ) store,
        storeGet (makeSessionKey chatId userId) store = none →
        getDuaSearchState chatId userId now store = (none, store)) ∧
    (∀ chatId userId (now : ℕ) store k, k ≠ makeSessionKey chatId userId →
        storeGet k (getDuaSearchState chatId userId now store).2 = storeGet k store ∧
        storeGet k (beginDuaSearch chatId userId now store) = storeGet k store ∧
        ∀ opts, storeGet k (setDuaSelectionState chatId userId opts now store) =
          storeGet k store) ∧
    (∀ chatId userId (now : ℕ) store,
        storeGet (makeSessionKey chatId userId) (beginDuaSearch chatId userId now store) =
          some { stage := .awaiting_query, options := [], updatedAt := now }) := by
  refine ⟨?_, ?_, ?_, ?_, ?_⟩
  · intro chatId userId now store s hs hle
    simp [getDuaSearchState, hs, not_lt.mpr hle]
  · intro chatId userId now store s hs hgt
    constructor
    · simp [getDuaSearchState, hs, hgt]
    · simp [getDuaSearchState, hs, hgt, storeGet_storeDelete_self]
  · intro chatId userId now store hs
    simp [getDuaSearchState, hs]
  · intro chatId userId now store k hk
    refine ⟨?_, ?_, ?_⟩
    · cases hg : storeGet (makeSessionKey chatId userId) store with
      | none => simp [getDuaSearchState, hg]
      | some current =>
        by_cases hexp : (now : ℤ) - (current.updatedAt : ℤ) > (SEARCH_STATE_TTL_MS : ℤ)
        · simpa [getDuaSearchState, hg, hexp] using storeGet_storeDelete_ne hk store
        · simp [getDuaSearchState, hg, hexp]
    · exact storeGet_storeSet_ne hk _ store
    · intro opts; exact storeGet_storeSet_ne hk _ store
  · intro chatId userId now store
    exact storeGet_storeSet_self _ _ store

/-- Concrete instantiation of the session TTL contract. -/
theorem session_ttl_contract_witness :
    storeGet (makeSessionKey (str "c") (str "u"))
        [(makeSessionKey (str "c") (str "u"),
          { stage := .awaiting_query, options := [], updatedAt := 1000 })] =
      some { stage := .awaiting_query, options := [], updatedAt := 1000 } ∧
    (2000 : ℤ) - (1000 : ℤ) ≤ (SEARCH_STATE_TTL_MS : ℤ) ∧
    getDuaSearchState (str "c") (str "u") 2000
        [(makeSessionKey (str "c") (str "u"),
          { stage := .awaiting_query, options := [], updatedAt := 1000 })] =
      (some { stage := .awaiting_query, options := [], updatedAt := 1000 },
        [(makeSessionKey (str "c") (str "u"),
          { stage := .awaiting_query, options := [], updatedAt := 1000 })]) :=
  ⟨by decide, by decide,
    session_ttl_contract.1 (str "c") (str "u") 2000 _ _ (by decide) (by decide)⟩

/-! ## The supplier-failure claim (C9) -/

/-- C9: when the candidate supplier fails during an `awaiting_query`
message, the handler answers with the dedicated failure reply (distinct
from every other reply) and the session store — hence the session's
stage, options and timestamp — is left untouched. -/
theorem supplier_failure_atomic :
    (∀ rank chatId userId now text store e,
        handleAwaitingQuery rank chatId userId now text (.error e) store =
          (.searchFailed, store)) ∧
    (BotReply.searchFailed ≠ BotReply.noMatch ∧
      (∀ d, BotReply.searchFailed ≠ BotReply.fullDua d) ∧
      (∀ ds, BotReply.searchFailed ≠ BotReply.optionsList ds)) ∧
    (∀ rank chatId userId now text store e s,
        storeGet (makeSessionKey chatId userId) store = some s →
        storeGet (makeSessionKey chatId userId)
          (handleAwaitingQuery rank chatId userId now text (.error e) store).2 =
          some s) := by
  refine ⟨fun _ _ _ _ _ _ _ => rfl, ⟨by simp, fun d => by simp, fun ds => by simp⟩, ?_⟩
  intro rank chatId userId now text store e s hs
  simpa [handleAwaitingQuery] using hs

/-- Concrete instantiation of the supplier-failure claim: the session
present before the failing message is still present, unchanged, after. -/
theorem supplier_failure_atomic_witness :
    storeGet (makeSessionKey (str "c") (str "u"))
        [(makeSessionKey (str "c") (str "u"),
          { stage := .awaiting_query, options := [], updatedAt := 5 })] =
      some { stage := .awaiting_query, options := [], updatedAt := 5 } ∧
    storeGet (makeSessionKey (str "c") (str "u"))
        (handleAwaitingQuery (fun _ _ => []) (str "c") (str "u") 7 (str "qq")
          (.error ()) [(makeSessionKey (str "c") (str "u"),
            { stage := .awaiting_query, options := [], updatedAt := 5 })]).2 =
      some { stage := .awaiting_query, options := [], updatedAt := 5 } :=
  ⟨by decide,
    supplier_failure_atomic.2.2 (fun _ _ => []) (str "c") (str "u") 7 (str "qq") _ () _
      (by decide)⟩

/-! ## Degenerate-input behaviour of `searchDuaMaster` (C8) -/

/-- C8: a query that normalizes to the empty string returns the empty
list (whatever the supplier would do), and an empty or non-array
candidate list returns the empty list for every query. -/
theorem search_degenerate_inputs :
    (∀ (q : Str) supplier options, normalizeText q = [] →
        searchDuaMaster q supplier options = .ok []) ∧
    (∀ (q : Str) options, searchDuaMaster q (.ok (some [])) options = .ok []) ∧
    (∀ (q : Str) options, searchDuaMaster q (.ok none) options = .ok []) := by
  refine ⟨?_, ?_, ?_⟩
  · intro q supplier options h
    simp [searchDuaMaster, h]
  · intro q options
    unfold searchDuaMaster
    by_cases h : (normalizeText q).isEmpty ||
        (buildQueryTokens (normalizeText q)).isEmpty
    · simp [h]
    · simp [h]
  · intro q options
    unfold searchDuaMaster
    by_cases h : (normalizeText q).isEmpty ||
        (buildQueryTokens (normalizeText q)).isEmpty
    · simp [h]
    · simp [h]

/-- Concrete instantiation: an all-punctuation query (whose normalization
is empty) returns the empty list even with a failing supplier. -/
theorem search_degenerate_inputs_witness :
    normalizeText (str "?!?") = [] ∧
    searchDuaMaster (str "?!?") (.error ()) {} = .ok [] :=
  ⟨by decide, search_degenerate_inputs.1 (str "?!?") (.error ()) {} (by decide)⟩

/-! ## Levenshtein distance and the near-match claim (C4) -/

/-- Every cell of the distance matrix dominates the difference of its
indices (in both directions), whatever the fuel. -/
theorem levCell_ge_diff (a b : Str) :
    ∀ fuel i j, i - j ≤ levCell a b fuel i j ∧ j - i ≤ levCell a b fuel i j := by
  intro fuel
  induction fuel with
  | zero => intro i j; constructor <;> simp [levCell] <;> omega
  | succ f ih =>
    intro i j
    match i, j with
    | 0, j => simp [levCell]
    | i + 1, 0 => simp [levCell]
    | i + 1, j + 1 =>
      have h1 := ih i (j + 1)
      have h2 := ih (i + 1) j
      have h3 := ih i j
      simp only [levCell]
      split <;> constructor <;> omega

/-- The edit distance dominates the length difference, so the
length-difference early reject in `isNearTokenMatch` is sound. -/
theorem lev_ge_length_diff (a b : Str) :
    a.length - b.length ≤ levenshteinDistance a b ∧
      b.length - a.length ≤ levenshteinDistance a b := by
  by_cases hab : a = b
  · subst hab; simp [levenshteinDistance]
  · by_cases ha : a = []
    · subst ha; simp [levenshteinDistance, hab]
    · by_cases hb : b = []
      · subst hb
        have ha' : a.isEmpty = false := by simp [List.isEmpty_iff, ha]
        simp [levenshteinDistance, hab, ha']
      · have ha' : a.isEmpty = false := by simp [List.isEmpty_iff, ha]
        have hb' : b.isEmpty = false := by simp [List.isEmpty_iff, hb]
        simpa [levenshteinDistance, hab, ha', hb'] using
          levCell_ge_diff a b (a.length + b.length) a.length b.length

/-- C4: for non-empty tokens the near-match predicate holds exactly on
identical tokens, prefixes in either direction, or edit distance within
the length-dependent threshold — stated both with and without the
length-difference gate (which never changes the outcome) — together with
the two concrete examples from the specification. -/
theorem isNearTokenMatch_characterization :
    (∀ q c : Str, q ≠ [] → c ≠ [] →
        (isNearTokenMatch q c = true ↔
          (q = c ∨ q <+: c ∨ c <+: q ∨
            ((q.length - c.length ≤ (if 7 ≤ q.length then 2 else 1) ∧
              c.length - q.length ≤ (if 7 ≤ q.length then 2 else 1)) ∧
              levenshteinDistance q c ≤ (if 7 ≤ q.length then 2 else 1))))) ∧
    (∀ q c : Str, q ≠ [] → c ≠ [] →
        (isNearTokenMatch q c = true ↔
          (q = c ∨ q <+: c ∨ c <+: q ∨
            levenshteinDistance q c ≤ (if 7 ≤ q.length then 2 else 1)))) ∧
    isNearTokenMatch (str "rizq") (str "rizk") = true ∧
    isNearTokenMatch (str "sleep") (str "evening") = false := by
  have hA : ∀ q c : Str, q ≠ [] → c ≠ [] →
      (isNearTokenMatch q c = true ↔
        (q = c ∨ q <+: c ∨ c <+: q ∨
          ((q.length - c.length ≤ (if 7 ≤ q.length then 2 else 1) ∧
            c.length - q.length ≤ (if 7 ≤ q.length then 2 else 1)) ∧
            levenshteinDistance q c ≤ (if 7 ≤ q.length then 2 else 1)))) := by
    intro q c hq hc
    have hq' : q.isEmpty = false := by simp [List.isEmpty_iff, hq]
    have hc' : c.isEmpty = false := by simp [List.isEmpty_iff, hc]
    by_cases heq : q = c
    · simp [isNearTokenMatch, hq', hc', heq]
    · by_cases hp1 : c <+: q
      · have : c.isPrefixOf q = true := List.isPrefixOf_iff_prefix.mpr hp1
        simp [isNearTokenMatch, hq', hc', heq, this, hp1]
      · by_cases hp2 : q <+: c
        · have : q.isPrefixOf c = true := List.isPrefixOf_iff_prefix.mpr hp2
          simp [isNearTokenMatch, hq', hc', heq, this, hp2]
        · have hb1 : c.isPrefixOf q = false := by
            rw [Bool.eq_false_iff]
            exact fun hcontra => hp1 (List.isPrefixOf_iff_prefix.mp hcontra)
          have hb2 : q.isPrefixOf c = false := by
            rw [Bool.eq_false_iff]
            exact fun hcontra => hp2 (List.isPrefixOf_iff_prefix.mp hcontra)
          by_cases hlen : q.length - c.length > (if 7 ≤ q.length then 2 else 1) ∨
              c.length - q.length > (if 7 ≤ q.length then 2 else 1)
          · simp only [isNearTokenMatch, hq', hc', Bool.or_self, Bool.false_or,
              if_false, heq, hb1, hb2]
            simp [hlen, heq, hp1, hp2]
            omega
          · simp only [isNearTokenMatch, hq', hc', Bool.or_self, Bool.false_or,
              if_false, heq, hb1, hb2]
            simp [hlen, heq, hp1, hp2]
            omega
  refine ⟨hA, ?_, by decide, by decide⟩
  intro q c hq hc
  rw [hA q c hq hc]
  have hd := lev_ge_length_diff q c
  constructor
  · rintro (h | h | h | ⟨_, h⟩) <;> tauto
  · rintro (h | h | h | h)
    · tauto
    · tauto
    · tauto
    · exact Or.inr (Or.inr (Or.inr ⟨⟨by omega, by omega⟩, h⟩))

/-- Concrete instantiation of the near-match characterization at the
specification's example pair. -/
theorem isNearTokenMatch_characterization_witness :
    (str "rizq" ≠ ([] : Str)) ∧ (str "rizk" ≠ ([] : Str)) ∧
    (isNearTokenMatch (str "rizq") (str "rizk") = true ↔
      (str "rizq" = str "rizk" ∨ str "rizq" <+: str "rizk" ∨
        str "rizk" <+: str "rizq" ∨
        levenshteinDistance (str "rizq") (str "rizk") ≤
          (if 7 ≤ (str "rizq").length then 2 else 1))) :=
  ⟨by decide, by decide,
    isNearTokenMatch_characterization.2.1 (str "rizq") (str "rizk")
      (by decide) (by decide)⟩

/-! ## The primary scorer claim (C1) -/

/-- One pass of the scoring loop adds exactly the reference per-token
bonus and counts the token when it hit any field. -/
theorem scoreTokenStep_eq (f : DuaFields) (s : ℚ) (m : ℕ) (t : Str) :
    scoreTokenStep f (s, m) t =
      (s + specTokenBonus f t, if specTokenHit f t then m + 1 else m) := by
  by_cases h1 : t ∈ makeTokenSet f.keywords <;>
    by_cases h2 : t ∈ makeTokenSet f.category ∨ t ∈ makeTokenSet f.chapter <;>
      by_cases h3 : t ∈ makeTokenSet f.arabic ∨ t ∈ makeTokenSet f.english <;>
        by_cases h4 : t ∈ makeTokenSet f.searchBlob <;>
          by_cases h5 : t ∈ makeTokenSet f.rawText <;>
            simp [scoreTokenStep, specTokenBonus, specTokenHit, h1, h2, h3, h4, h5] <;>
              ring

/-- The whole scoring loop computes the reference token-bonus sum and the
reference matched-token count. -/
theorem scoreTokenStep_fold (f : DuaFields) :
    ∀ (toks : List Str) (s : ℚ) (m : ℕ),
      toks.foldl (scoreTokenStep f) (s, m) =
        (s + (toks.map (specTokenBonus f)).sum, m + toks.countP (specTokenHit f)) := by
  intro toks
  induction toks with
  | nil => intro s m; simp
  | cons t rest ih =>
    intro s m
    rw [List.foldl_cons, scoreTokenStep_eq, ih]
    by_cases h : specTokenHit f t
    · simp [h, List.countP_cons]
      constructor
      · ring
      · omega
    · simp [h, List.countP_cons]
      ring

/-- C1: for every candidate and every query with a non-empty expanded
token list, `scoreDua` equals the §4.3 reference sum (flat containment
bonuses, per-token field bonuses, and the coverage bonus). -/
theorem scoreDua_matches_spec (queryNormalized : Str) (queryTokens : List Str)
    (dua : Dua) (htoks : queryTokens ≠ []) :
    scoreDua queryNormalized queryTokens dua =
      scoreDuaSpec queryNormalized queryTokens dua := by
  have hlen : 0 < queryTokens.length := List.length_pos.mpr htoks
  unfold scoreDua scoreDuaSpec
  simp only [scoreTokenStep_fold, specFlatBonus, Nat.zero_add, gt_iff_lt, hlen,
    if_true]

/-- Concrete instantiation of the scorer/reference agreement on the
specification's `safar`-scenario record. -/
theorem scoreDua_matches_spec_witness :
    ([str "travel"] ≠ ([] : List Str)) ∧
    scoreDua (str "travel") [str "travel"]
        { id := str "1", category := str "Morning",
          english := str "dua for travel safety" } =
      scoreDuaSpec (str "travel") [str "travel"]
        { id := str "1", category := str "Morning",
          english := str "dua for travel safety" } :=
  ⟨by decide,
    scoreDua_matches_spec (str "travel") [str "travel"]
      { id := str "1", category := str "Morning",
        english := str "dua for travel safety" } (by decide)⟩

/-! ## The relaxed fallback claim (C3) -/

/-- The relaxed scoring loop computes the reference per-token sum. -/
theorem relaxedScore_fold (haystack : Str) (hayTokens : List Str) :
    ∀ (toks : List Str) (s : ℚ),
      toks.foldl (fun score token =>
        if strIncludes haystack token then score + 5
        else if hayTokens.any (fun candidate => isNearTokenMatch token candidate) then
          score + 2.5
        else score) s =
      s + relaxedScoreSpec toks haystack hayTokens := by
  intro toks
  induction toks with
  | nil => intro s; simp [relaxedScoreSpec]
  | cons t rest ih =>
    intro s
    rw [List.foldl_cons]
    by_cases h1 : strIncludes haystack t
    · simp only [h1, if_true, ih, relaxedScoreSpec, List.map_cons, List.sum_cons]
      ring
    · by_cases h2 : hayTokens.any (fun candidate => isNearTokenMatch t candidate)
      · simp only [h1, h2, if_true, if_false, Bool.false_eq_true, ih,
          relaxedScoreSpec, List.map_cons, List.sum_cons]
        ring
      · simp only [h1, h2, if_false, Bool.false_eq_true, ih,
          relaxedScoreSpec, List.map_cons, List.sum_cons]
        ring

/-- C3: the relaxed fallback participates exactly when the primary scorer
keeps nothing; each fallback score is the reference +5/+2.5 per-token sum;
only positive fallback scores are kept; and when both stages keep nothing
the search result is empty. -/
theorem fallback_stage_characterization :
    (∀ queryNormalized queryTokens masterRows limit,
        primaryScoredList queryNormalized queryTokens masterRows ≠ [] →
        searchCore queryNormalized queryTokens masterRows limit =
          rankAndTake limit (primaryScoredList queryNormalized queryTokens masterRows)) ∧
    (∀ queryNormalized queryTokens masterRows limit,
        primaryScoredList queryNormalized queryTokens masterRows = [] →
        searchCore queryNormalized queryTokens masterRows limit =
          rankAndTake limit (relaxedScoredList queryTokens masterRows)) ∧
    (∀ queryTokens haystack hayTokens,
        relaxedScore queryTokens haystack hayTokens =
          relaxedScoreSpec queryTokens haystack hayTokens) ∧
    (∀ queryTokens masterRows entry,
        entry ∈ relaxedScoredList queryTokens masterRows ↔
          (entry.dua ∈ masterRows ∧ relaxedHaystack entry.dua ≠ [] ∧
            entry.score = relaxedScoreSpec queryTokens (relaxedHaystack entry.dua)
              (tokenizeWords (relaxedHaystack entry.dua)) ∧
            0 < entry.score)) ∧
    (∀ queryNormalized queryTokens masterRows limit,
        primaryScoredList queryNormalized queryTokens masterRows = [] →
        relaxedScoredList queryTokens masterRows = [] →
        searchCore queryNormalized queryTokens masterRows limit = []) := by
  have hscore : ∀ queryTokens haystack hayTokens,
      relaxedScore queryTokens haystack hayTokens =
        relaxedScoreSpec queryTokens haystack hayTokens := by
    intro toks hay hayToks
    unfold relaxedScore
    rw [relaxedScore_fold]
    ring
  refine ⟨?_, ?_, hscore, ?_, ?_⟩
  · intro qN toks rows limit h
    simp [searchCore, List.length_pos.mpr h]
  · intro qN toks rows limit h
    simp [searchCore, h]
  · intro toks rows entry
    obtain ⟨dua, score⟩ := entry
    simp only [relaxedScoredList, List.mem_filterMap]
    constructor
    · rintro ⟨d, hd, hsome⟩
      by_cases hhay : (relaxedHaystack d).isEmpty
      · simp [hhay] at hsome
      · rw [Bool.not_eq_true] at hhay
        by_cases hpos : relaxedScore toks (relaxedHaystack d)
            (tokenizeWords (relaxedHaystack d)) > 0
        · simp only [hhay, hpos, if_true, if_false, Bool.false_eq_true,
            Option.some.injEq, ScoredDua.mk.injEq] at hsome
          obtain ⟨rfl, rfl⟩ := hsome
          exact ⟨hd, by simpa [List.isEmpty_iff] using hhay, hscore _ _ _, hpos⟩
        · simp [hhay, hpos] at hsome
    · rintro ⟨hd, hhay, hsc, hpos⟩
      refine ⟨dua, hd, ?_⟩
      have hhay' : (relaxedHaystack dua).isEmpty = false := by
        rw [Bool.eq_false_iff]
        simpa [List.isEmpty_iff] using hhay
      have hpos' : relaxedScore toks (relaxedHaystack dua)
          (tokenizeWords (relaxedHaystack dua)) > 0 := by
        rw [hscore _ _ _, ← hsc]; exact hpos
      simp only [hhay', hpos', if_true, if_false, Bool.false_eq_true,
        Option.some.injEq, ScoredDua.mk.injEq]
      exact ⟨trivial, (hscore _ _ _).trans hsc.symm⟩
  · intro qN toks rows limit h1 h2
    simp [searchCore, h1, h2, rankAndTake]

/-- Concrete instantiation of the fallback claim: with no primary
survivor, the search result comes from the relaxed stage. -/
theorem fallback_stage_characterization_witness :
    primaryScoredList (str "zzz") [str "zzz"] [] = [] ∧
    searchCore (str "zzz") [str "zzz"] [] 3 =
      rankAndTake 3 (relaxedScoredList [str "zzz"] []) :=
  ⟨rfl,
    fallback_stage_characterization.2.1 (str "zzz") [str "zzz"] [] 3 rfl⟩

/-! ## The ranking claim (C2) -/

theorem lexLE_total : ∀ a b : Str, lexLE a b = true ∨ lexLE b a = true := by
  intro a
  induction a with
  | nil => intro b; left; rfl
  | cons x xs ih =>
    intro b
    cases b with
    | nil => right; rfl
    | cons y ys =>
      by_cases hxy : x = y
      · subst hxy
        rcases ih ys with h | h
        · left; simp [lexLE, h]
        · right; simp [lexLE, h]
      · rcases Nat.lt_or_ge x.toNat y.toNat with h | h
        · left; simp [lexLE, h]
        · have hlt : y.toNat < x.toNat :=
            lt_of_le_of_ne h (fun hc => hxy (Char.eq_of_val_eq (UInt32.ext hc.symm)))
          right; simp [lexLE, hlt]

theorem lexLE_antisymm : ∀ a b : Str, lexLE a b = true → lexLE b a = true → a = b := by
  intro a
  induction a with
  | nil =>
    intro b _ hba
    cases b with
    | nil => rfl
    | cons y ys => simp [lexLE] at hba
  | cons x xs ih =>
    intro b hab hba
    cases b with
    | nil => simp [lexLE] at hab
    | cons y ys =>
      simp only [lexLE, Bool.or_eq_true, Bool.and_eq_true, decide_eq_true_eq] at hab hba
      rcases hab with h1 | ⟨hxy, h1⟩
      · rcases hba with h2 | ⟨hyx, _⟩
        · omega
        · subst hyx; omega
      · subst hxy
        rcases hba with h2 | ⟨_, h2⟩
        · omega
        · rw [ih ys h1 h2]

theorem lexLE_trans : ∀ a b c : Str, lexLE a b = true → lexLE b c = true →
    lexLE a c = true := by
  intro a
  induction a with
  | nil => intro b c _ _; rfl
  | cons x xs ih =>
    intro b c hab hbc
    cases b with
    | nil => simp [lexLE] at hab
    | cons y ys =>
      cases c with
      | nil => simp [lexLE] at hbc
      | cons z zs =>
        simp only [lexLE, Bool.or_eq_true, Bool.and_eq_true, decide_eq_true_eq]
          at hab hbc ⊢
        rcases hab with h1 | ⟨hxy, h1⟩
        · rcases hbc with h2 | ⟨hyz, _⟩
          · left; omega
          · subst hyz; left; omega
        · subst hxy
          rcases hbc with h2 | ⟨hyz, h2⟩
          · left; omega
          · subst hyz; right; exact ⟨rfl, ih ys zs h1 h2⟩

theorem scoredLE_iff_before (a b : ScoredDua) :
    scoredLE a b = true ↔ scoredBefore a b := by
  unfold scoredLE scoredBefore
  by_cases h : a.score = b.score
  · rw [if_pos h]
    constructor
    · intro hlex; exact Or.inr ⟨h, hlex⟩
    · rintro (hlt | ⟨_, hlex⟩)
      · rw [h] at hlt; exact absurd hlt (lt_irrefl _)
      · exact hlex
  · rw [if_neg h]
    constructor
    · intro hd; exact Or.inl (of_decide_eq_true hd)
    · rintro (hlt | ⟨heq, _⟩)
      · exact decide_eq_true hlt
      · exact absurd heq h

theorem scoredBefore_trans {a b c : ScoredDua} (hab : scoredBefore a b)
    (hbc : scoredBefore b c) : scoredBefore a c := by
  rcases hab with h1 | ⟨e1, l1⟩
  · rcases hbc with h2 | ⟨e2, _⟩
    · exact Or.inl (lt_trans h2 h1)
    · exact Or.inl (by rw [← e2]; exact h1)
  · rcases hbc with h2 | ⟨e2, l2⟩
    · exact Or.inl (by rw [e1]; exact h2)
    · exact Or.inr ⟨e1.trans e2, lexLE_trans _ _ _ l1 l2⟩

theorem scoredBefore_total (a b : ScoredDua) :
    scoredBefore a b ∨ scoredBefore b a := by
  by_cases h : a.score = b.score
  · rcases lexLE_total a.dua.id b.dua.id with hl | hl
    · exact Or.inl (Or.inr ⟨h, hl⟩)
    · exact Or.inr (Or.inr ⟨h.symm, hl⟩)
  · rcases lt_or_gt_of_ne h with hlt | hgt
    · exact Or.inr (Or.inl hlt)
    · exact Or.inl (Or.inl hgt)

/-- A permutation-and-sortedness pair determines a list uniquely, given
antisymmetry on the members of the list. -/
theorem eq_of_perm_of_pairwise {α : Type} {R : α → α → Prop} :
    ∀ {l₁ l₂ : List α}, l₁.Perm l₂ → l₁.Pairwise R → l₂.Pairwise R →
      (∀ a ∈ l₁, ∀ b ∈ l₁, R a b → R b a → a = b) → l₁ = l₂ := by
  intro l₁
  induction l₁ with
  | nil => intro l₂ hp _ _ _; exact hp.nil_eq
  | cons a t ih =>
    intro l₂ hp hs₁ hs₂ hanti
    cases l₂ with
    | nil => exact absurd hp.length_eq (by simp)
    | cons b t₂ =>
      have hab : a = b := by
        have ha2 : a ∈ b :: t₂ := hp.subset (List.mem_cons_self a t)
        have hb1 : b ∈ a :: t := hp.symm.subset (List.mem_cons_self b t₂)
        rcases List.mem_cons.mp ha2 with h | ha2'
        · exact h
        · rcases List.mem_cons.mp hb1 with h | hb1'
          · exact h.symm
          · have hRab : R a b := (List.pairwise_cons.mp hs₁).1 b hb1'
            have hRba : R b a := (List.pairwise_cons.mp hs₂).1 a ha2'
            exact hanti a (List.mem_cons_self a t) b hb1 hRab hRba
      subst hab
      have ht : t.Perm t₂ := hp.cons_inv
      have hrec := ih ht (List.pairwise_cons.mp hs₁).2 (List.pairwise_cons.mp hs₂).2
        (fun x hx y hy => hanti x (List.mem_cons_of_mem a hx) y
          (List.mem_cons_of_mem a hy))
      rw [hrec]

/-- Antisymmetry of the ranking order on any scored list whose
identifiers are duplicate-free. -/
theorem scoredBefore_antisymm_on {l : List ScoredDua}
    (h : (l.map (fun x => x.dua.id)).Nodup) :
    ∀ a ∈ l, ∀ b ∈ l, scoredBefore a b → scoredBefore b a → a = b := by
  intro a ha b hb hab hba
  rcases hab with hlt | ⟨heq, hlex⟩
  · rcases hba with hlt' | ⟨heq', _⟩
    · exact absurd (lt_trans hlt hlt') (lt_irrefl _)
    · exact absurd (heq' ▸ hlt) (lt_irrefl _)
  · rcases hba with hlt' | ⟨_, hlex'⟩
    · exact absurd (heq ▸ hlt') (lt_irrefl _)
    · have hid : a.dua.id = b.dua.id := lexLE_antisymm _ _ hlex hlex'
      exact List.inj_on_of_nodup_map h ha hb hid

/-- C2: the default limit is 3 (any missing or non-positive limit), the
search function is deterministic, and the ranked output is exactly the
surviving candidates in strictly-descending score order with the
lexicographic identifier tie-break, truncated to the limit: any sorted
permutation of the survivors yields the output. -/
theorem search_ranking_deterministic :
    (∀ options : SearchOptions,
        (options.limit = none ∨ ∃ n, options.limit = some n ∧ n ≤ 0) →
        effectiveLimit options = 3) ∧
    (∀ n : ℤ, 0 < n → effectiveLimit { limit := some n } = n.toNat) ∧
    (∀ q supplier options,
        searchDuaMaster q supplier options = searchDuaMaster q supplier options) ∧
    (∀ (scored l : List ScoredDua) (limit : ℕ),
        (scored.map (fun x => x.dua.id)).Nodup →
        l.Perm scored → l.Pairwise scoredBefore →
        rankAndTake limit scored = (l.take limit).map (fun x => x.dua)) ∧
    (∀ queryNormalized queryTokens masterRows limit,
        primaryScoredList queryNormalized queryTokens masterRows ≠ [] →
        searchCore queryNormalized queryTokens masterRows limit =
          rankAndTake limit (primaryScoredList queryNormalized queryTokens masterRows)) := by
  refine ⟨?_, ?_, fun _ _ _ => rfl, ?_, ?_⟩
  · rintro options (h | ⟨n, hn, hle⟩)
    · simp [effectiveLimit, h]
    · simp [effectiveLimit, hn, not_lt.mpr hle]
  · intro n hn
    simp [effectiveLimit, hn]
  · intro scored l limit hnodup hperm hsorted
    unfold rankAndTake
    have hmsperm : (scored.mergeSort scoredLE).Perm scored :=
      List.mergeSort_perm scored scoredLE
    have hmssorted : (scored.mergeSort scoredLE).Pairwise scoredBefore := by
      have := @List.sorted_mergeSort ScoredDua scoredLE
        (fun a b c hab hbc => (scoredLE_iff_before a c).mpr
          (scoredBefore_trans ((scoredLE_iff_before a b).mp hab)
            ((scoredLE_iff_before b c).mp hbc)))
        (fun a b => by
          rcases scoredBefore_total a b with h | h
          · simp [(scoredLE_iff_before a b).mpr h]
          · simp [(scoredLE_iff_before b a).mpr h]) scored
      exact this.imp (fun h => (scoredLE_iff_before _ _).mp h)
    have hmsnodup : ((scored.mergeSort scoredLE).map (fun x => x.dua.id)).Nodup :=
      ((hmsperm.map (fun x => x.dua.id)).nodup_iff).mpr hnodup
    have heq : scored.mergeSort scoredLE = l :=
      eq_of_perm_of_pairwise (hmsperm.trans hperm.symm) hmssorted hsorted
        (scoredBefore_antisymm_on hmsnodup)
    rw [heq, List.map_take]
  · intro qN toks rows limit h
    simp [searchCore, List.length_pos.mpr h]

/-- Concrete instantiation of the ranking claim at the empty survivor
list (all three hypotheses hold there). -/
theorem search_ranking_deterministic_witness :
    (([] : List ScoredDua).map (fun x => x.dua.id)).Nodup ∧
    ([] : List ScoredDua).Perm [] ∧
    ([] : List ScoredDua).Pairwise scoredBefore ∧
    rankAndTake 3 ([] : List ScoredDua) =
      (([] : List ScoredDua).take 3).map (fun x => x.dua) :=
  ⟨List.nodup_nil, List.Perm.refl [], List.Pairwise.nil,
    search_ranking_deterministic.2.2.2.1 [] [] 3 List.nodup_nil
      (List.Perm.refl []) List.Pairwise.nil⟩

/-! ## Character-level facts about the normalization pipeline -/

theorem toNat_charOfNat {n : ℕ} (h : n < 55296) : (Char.ofNat n).toNat = n := by
  unfold Char.ofNat
  rw [dif_pos (Or.inl h)]
  rfl

theorem jsLower_toNat (c : Char) : (jsLowerChar c).toNat =
    if 65 ≤ c.toNat ∧ c.toNat ≤ 90 then c.toNat + 32 else c.toNat := by
  unfold jsLowerChar
  by_cases h : 65 ≤ c.toNat ∧ c.toNat ≤ 90
  · rw [if_pos h, if_pos h, toNat_charOfNat (by omega)]
  · rw [if_neg h, if_neg h]

theorem jsLower_fix {c : Char} (h : ¬(65 ≤ c.toNat ∧ c.toNat ≤ 90)) :
    jsLowerChar c = c := by
  unfold jsLowerChar
  rw [if_neg h]

theorem jsLower_idem (c : Char) : jsLowerChar (jsLowerChar c) = jsLowerChar c := by
  by_cases h : 65 ≤ c.toNat ∧ c.toNat ≤ 90
  · have ht : (jsLowerChar c).toNat = c.toNat + 32 := by
      rw [jsLower_toNat, if_pos h]
    apply jsLower_fix
    rw [ht]
    omega
  · rw [jsLower_fix h, jsLower_fix h]

theorem word_not_space {c : Char} (h : isWordChar c = true) :
    isSpaceJS c = false := by
  rw [Bool.eq_false_iff]
  intro h'
  simp only [isWordChar, decide_eq_true_eq] at h
  simp only [isSpaceJS, decide_eq_true_eq] at h'
  omega

theorem word_not_combining {c : Char} (h : isWordChar c = true) :
    isCombiningMark c = false := by
  rw [Bool.eq_false_iff]
  intro h'
  simp only [isWordChar, decide_eq_true_eq] at h
  simp only [isCombiningMark, decide_eq_true_eq] at h'
  omega

theorem nfkdChar_stable_of_lt {c : Char} (h : c.toNat < 0xC1) :
    nfkdChar c = [c] := by
  unfold nfkdChar
  rw [if_neg (by rintro rfl; revert h; decide)]
  rw [if_neg (by rintro rfl; revert h; decide)]
  rw [if_neg (by rintro rfl; revert h; decide)]
  rw [if_neg (by rintro rfl; revert h; decide)]
  rw [if_neg (by rintro rfl; revert h; decide)]
  rw [if_neg (by rintro rfl; revert h; decide)]
  rw [if_neg (by rintro rfl; revert h; decide)]
  rw [if_neg (by rintro rfl; revert h; decide)]
  rw [if_neg (by rintro rfl; revert h; decide)]
  rw [if_neg (by rintro rfl; revert h; decide)]
  rw [if_neg (by rintro rfl; revert h; decide)]

set_option maxHeartbeats 2000000 in
theorem nfkdChar_out_stable {c c' : Char} (h : c' ∈ nfkdChar c) :
    nfkdChar c' = [c'] := by
  unfold nfkdChar at h
  split at h
  · rcases List.mem_cons.mp h with rfl | h <;> first | decide | (obtain rfl := List.mem_singleton.mp h; decide)
  · split at h
    · rcases List.mem_cons.mp h with rfl | h <;> first | decide | (obtain rfl := List.mem_singleton.mp h; decide)
    · split at h
      · rcases List.mem_cons.mp h with rfl | h <;> first | decide | (obtain rfl := List.mem_singleton.mp h; decide)
      · split at h
        · rcases List.mem_cons.mp h with rfl | h <;> first | decide | (obtain rfl := List.mem_singleton.mp h; decide)
        · split at h
          · rcases List.mem_cons.mp h with rfl | h <;> first | decide | (obtain rfl := List.mem_singleton.mp h; decide)
          · split at h
            · rcases List.mem_cons.mp h with rfl | h <;> first | decide | (obtain rfl := List.mem_singleton.mp h; decide)
            · split at h
              · rcases List.mem_cons.mp h with rfl | h <;> first | decide | (obtain rfl := List.mem_singleton.mp h; decide)
              · split at h
                · rcases List.mem_cons.mp h with rfl | h <;> first | decide | (obtain rfl := List.mem_singleton.mp h; decide)
                · split at h
                  · rcases List.mem_cons.mp h with rfl | h <;> first | decide | (obtain rfl := List.mem_singleton.mp h; decide)
                  · split at h
                    · rcases List.mem_cons.mp h with rfl | h <;> first | decide | (obtain rfl := List.mem_singleton.mp h; decide)
                    · split at h
                      · rcases List.mem_cons.mp h with rfl | h <;> first | decide | (obtain rfl := List.mem_singleton.mp h; decide)
                      · obtain rfl := List.mem_singleton.mp h
                        unfold nfkdChar
                        rw [if_neg ‹¬(c' = 'á')›, if_neg ‹¬(c' = 'é')›,
                          if_neg ‹¬(c' = 'í')›, if_neg ‹¬(c' = 'ó')›,
                          if_neg ‹¬(c' = 'ú')›, if_neg ‹¬(c' = 'Á')›,
                          if_neg ‹¬(c' = 'É')›, if_neg ‹¬(c' = 'ñ')›,
                          if_neg ‹¬(c' = 'ü')›, if_neg ‹¬(c' = 'ç')›,
                          if_neg ‹¬(c' = 'ﬁ')›]

theorem nfkd_stable_jsLower {c : Char} (h : nfkdChar c = [c]) :
    nfkdChar (jsLowerChar c) = [jsLowerChar c] := by
  by_cases hc : 65 ≤ c.toNat ∧ c.toNat ≤ 90
  · have ht : (jsLowerChar c).toNat = c.toNat + 32 := by
      rw [jsLower_toNat, if_pos hc]
    exact nfkdChar_stable_of_lt (by omega)
  · rw [jsLower_fix hc]
    exact h

/-! ## Structure of `normalizeText` output and idempotence (C5) -/

theorem mem_nfkdStr_stable : ∀ (s : Str) (c : Char), c ∈ nfkdStr s →
    nfkdChar c = [c] := by
  intro s
  induction s with
  | nil => intro c h; simp [nfkdStr] at h
  | cons a rest ih =>
    intro c h
    rcases List.mem_append.mp h with h | h
    · exact nfkdChar_out_stable h
    · exact ih c h

theorem nfkdStr_fix : ∀ {s : Str}, (∀ c ∈ s, nfkdChar c = [c]) → nfkdStr s = s := by
  intro s
  induction s with
  | nil => intro _; rfl
  | cons a rest ih =>
    intro h
    show nfkdChar a ++ nfkdStr rest = a :: rest
    rw [h a (List.mem_cons_self a rest), ih (fun c hc => h c (List.mem_cons_of_mem a hc))]
    rfl

theorem map_fix {f : Char → Char} : ∀ {s : Str}, (∀ c ∈ s, f c = c) →
    s.map f = s := by
  intro s
  induction s with
  | nil => intro _; rfl
  | cons a rest ih =>
    intro h
    rw [List.map_cons, h a (List.mem_cons_self a rest),
      ih (fun c hc => h c (List.mem_cons_of_mem a hc))]

theorem mem_collapseAux : ∀ (s : Str) (b : Bool) (c : Char),
    c ∈ collapseAux b s → c = ' ' ∨ (c ∈ s ∧ isSpaceJS c = false) := by
  intro s
  induction s with
  | nil => intro b c h; simp [collapseAux] at h
  | cons a rest ih =>
    intro b c h
    by_cases ha : isSpaceJS a
    · by_cases hb : b
      · subst hb
        rcases ih true c (by simpa [collapseAux, ha] using h) with h' | ⟨hm, hs⟩
        · exact Or.inl h'
        · exact Or.inr ⟨List.mem_cons_of_mem a hm, hs⟩
      · simp only [Bool.not_eq_true] at hb
        subst hb
        simp only [collapseAux, ha, if_true, if_false, Bool.false_eq_true] at h
        rcases List.mem_cons.mp h with rfl | h'
        · exact Or.inl rfl
        · rcases ih true c h' with h'' | ⟨hm, hs⟩
          · exact Or.inl h''
          · exact Or.inr ⟨List.mem_cons_of_mem a hm, hs⟩
    · have ha' : isSpaceJS a = false := by rw [Bool.eq_false_iff]; exact ha
      simp only [collapseAux, ha', if_false, Bool.false_eq_true] at h
      rcases List.mem_cons.mp h with rfl | h'
      · exact Or.inr ⟨List.mem_cons_self c rest, ha'⟩
      · rcases ih false c h' with h'' | ⟨hm, hs⟩
        · exact Or.inl h''
        · exact Or.inr ⟨List.mem_cons_of_mem a hm, hs⟩

theorem collapseAux_true_head : ∀ (s : Str) (c : Char),
    (collapseAux true s).head? = some c → isSpaceJS c = false := by
  intro s
  induction s with
  | nil => intro c h; simp [collapseAux] at h
  | cons a rest ih =>
    intro c h
    by_cases ha : isSpaceJS a
    · exact ih c (by simpa [collapseAux, ha] using h)
    · have ha' : isSpaceJS a = false := by rw [Bool.eq_false_iff]; exact ha
      simp only [collapseAux, ha', if_false, Bool.false_eq_true, List.head?_cons,
        Option.some.injEq] at h
      rw [← h]
      exact ha'

theorem chain_collapseAux : ∀ (s : Str) (b : Bool),
    List.Chain' noDoubleSpace (collapseAux b s) := by
  intro s
  induction s with
  | nil => intro b; simp [collapseAux]
  | cons a rest ih =>
    intro b
    by_cases ha : isSpaceJS a
    · by_cases hb : b
      · subst hb
        simpa [collapseAux, ha] using ih true
      · simp only [Bool.not_eq_true] at hb
        subst hb
        simp only [collapseAux, ha, if_true, if_false, Bool.false_eq_true]
        rw [List.chain'_cons']
        constructor
        · intro y hy
          intro hc
          have := collapseAux_true_head rest y hy
          rw [hc.2] at this
          exact absurd this (by decide)
        · exact ih true
    · have ha' : isSpaceJS a = false := by rw [Bool.eq_false_iff]; exact ha
      simp only [collapseAux, ha', if_false, Bool.false_eq_true]
      rw [List.chain'_cons']
      constructor
      · intro y hy
        intro hc
        rw [hc.1] at ha'
        exact absurd ha' (by decide)
      · exact ih false

theorem dropWhile_head? {p : Char → Bool} : ∀ (l : Str) (c : Char),
    (l.dropWhile p).head? = some c → p c = false := by
  intro l
  induction l with
  | nil => intro c h; simp at h
  | cons a rest ih =>
    intro c h
    by_cases ha : p a
    · exact ih c (by simpa [List.dropWhile_cons, ha] using h)
    · have ha' : p a = false := by rw [Bool.eq_false_iff]; exact ha
      simp only [List.dropWhile_cons, ha', if_false, Bool.false_eq_true,
        List.head?_cons, Option.some.injEq] at h
      rw [← h]
      exact ha'

theorem suffix_getLast? {l t : Str} (h : t <:+ l) (hne : t ≠ []) :
    t.getLast? = l.getLast? := by
  obtain ⟨u, rfl⟩ := h
  rw [List.getLast?_append]
  cases ht : t.getLast? with
  | none => exact absurd (List.getLast?_eq_none_iff.mp ht) hne
  | some x => rfl

theorem trimStr_infix_self (s : Str) : trimStr s <:+: s := by
  unfold trimStr
  refine List.infix_iff_prefix_suffix.mpr ⟨s.dropWhile isSpaceJS, ?_, List.dropWhile_suffix _⟩
  have h1 : (s.dropWhile isSpaceJS).reverse.dropWhile isSpaceJS <:+
      (s.dropWhile isSpaceJS).reverse := List.dropWhile_suffix _
  have h2 := List.reverse_prefix.mpr h1
  rwa [List.reverse_reverse] at h2

theorem trimStr_head_not_space (s : Str) : ∀ c, (trimStr s).head? = some c →
    isSpaceJS c = false := by
  intro c hc
  unfold trimStr at hc
  rw [List.head?_reverse] at hc
  have hne : (s.dropWhile isSpaceJS).reverse.dropWhile isSpaceJS ≠ [] := by
    intro h0
    rw [h0] at hc
    simp at hc
  rw [suffix_getLast? (List.dropWhile_suffix _) hne, List.getLast?_reverse] at hc
  exact dropWhile_head? _ _ hc

theorem trimStr_getLast_not_space (s : Str) : ∀ c, (trimStr s).getLast? = some c →
    isSpaceJS c = false := by
  intro c hc
  unfold trimStr at hc
  rw [List.getLast?_reverse] at hc
  exact dropWhile_head? _ _ hc

theorem normalChar_of_mem_normalizeText {s : Str} {c : Char}
    (h : c ∈ normalizeText s) : normalChar c := by
  unfold normalizeText at h
  have h1 : c ∈ collapseWs (List.map replaceNonWord
      (List.map jsLowerChar ((nfkdStr s).filter (fun x => !isCombiningMark x)))) :=
    List.Sublist.mem h (List.IsInfix.sublist (trimStr_infix_self _))
  rcases mem_collapseAux _ _ _ h1 with rfl | ⟨h2, hns⟩
  · exact ⟨Or.inr rfl, by decide, by decide, by decide, fun _ => rfl⟩
  · rcases List.mem_map.mp h2 with ⟨c1, hc1, rfl⟩
    rcases List.mem_map.mp hc1 with ⟨c0, hc0, rfl⟩
    have hst : nfkdChar c0 = [c0] :=
      mem_nfkdStr_stable s c0 (List.mem_filter.mp hc0).1
    by_cases hw : isWordChar (jsLowerChar c0) || isSpaceJS (jsLowerChar c0)
    · have hrepl : replaceNonWord (jsLowerChar c0) = jsLowerChar c0 := by
        unfold replaceNonWord
        rw [if_pos hw]
      rw [hrepl] at hns ⊢
      have hword : isWordChar (jsLowerChar c0) = true := by
        rcases Bool.or_eq_true_iff.mp hw with hw' | hw'
        · exact hw'
        · rw [hw'] at hns; exact absurd hns (by decide)
      refine ⟨Or.inl hword, nfkd_stable_jsLower hst, jsLower_idem c0,
        word_not_combining hword, fun hsp => ?_⟩
      rw [hsp] at hns
      exact absurd hns (by decide)
    · have hrepl : replaceNonWord (jsLowerChar c0) = ' ' := by
        unfold replaceNonWord
        rw [if_neg (by simpa using hw)]
      rw [hrepl] at hns
      exact absurd hns (by decide)

theorem collapseAux_fix : ∀ (s : Str),
    (∀ c ∈ s, isSpaceJS c = true → c = ' ') → List.Chain' noDoubleSpace s →
    (collapseAux false s = s ∧
      ((∀ c, s.head? = some c → c ≠ ' ') → collapseAux true s = s)) := by
  intro s
  induction s with
  | nil => intro _ _; exact ⟨rfl, fun _ => rfl⟩
  | cons a rest ih =>
    intro hsp hchain
    have hrest := ih (fun c hc => hsp c (List.mem_cons_of_mem a hc))
      (List.Chain'.tail hchain)
    by_cases ha : isSpaceJS a
    · have ha' : a = ' ' := hsp a (List.mem_cons_self a rest) ha
      subst ha'
      have htail : collapseAux true rest = rest := by
        apply hrest.2
        intro c hc hceq
        subst hceq
        have := (List.chain'_cons'.mp hchain).1 ' ' hc
        exact this ⟨rfl, rfl⟩
      constructor
      · simp [collapseAux, ha, htail]
      · intro hhead
        exact absurd rfl (hhead ' ' rfl)
    · have ha' : isSpaceJS a = false := by rw [Bool.eq_false_iff]; exact ha
      constructor
      · simp only [collapseAux, ha', if_false, Bool.false_eq_true, hrest.1]
      · intro _
        simp only [collapseAux, ha', if_false, Bool.false_eq_true, hrest.1]

theorem dropWhile_fix {p : Char → Bool} : ∀ (l : Str),
    (∀ c, l.head? = some c → p c = false) → l.dropWhile p = l := by
  intro l h
  cases l with
  | nil => rfl
  | cons a rest =>
    rw [List.dropWhile_cons, if_neg]
    rw [h a rfl]
    simp

theorem trimStr_fix (s : Str)
    (hh : ∀ c, s.head? = some c → isSpaceJS c = false)
    (hl : ∀ c, s.getLast? = some c → isSpaceJS c = false) : trimStr s = s := by
  unfold trimStr
  rw [dropWhile_fix s hh, dropWhile_fix s.reverse (fun c hc => by
    rw [List.head?_reverse] at hc
    exact hl c hc), List.reverse_reverse]

/-- All normalization stages fix the output of `normalizeText`. -/
theorem normalizeText_idem (s : Str) :
    normalizeText (normalizeText s) = normalizeText s := by
  have hmem : ∀ c ∈ normalizeText s, normalChar c :=
    fun c hc => normalChar_of_mem_normalizeText hc
  have h1 : nfkdStr (normalizeText s) = normalizeText s :=
    nfkdStr_fix (fun c hc => (hmem c hc).2.1)
  have h2 : (normalizeText s).filter (fun c => !isCombiningMark c) = normalizeText s :=
    List.filter_eq_self.mpr (fun c hc => by rw [(hmem c hc).2.2.2.1]; rfl)
  have h3 : (normalizeText s).map jsLowerChar = normalizeText s :=
    map_fix (fun c hc => (hmem c hc).2.2.1)
  have h4 : (normalizeText s).map replaceNonWord = normalizeText s := by
    apply map_fix
    intro c hc
    rcases (hmem c hc).1 with hw | rfl
    · unfold replaceNonWord
      rw [if_pos (by rw [hw]; rfl)]
    · decide
  have hchain : List.Chain' noDoubleSpace (normalizeText s) := by
    unfold normalizeText
    exact List.Chain'.infix (chain_collapseAux _ false) (trimStr_infix_self _)
  have hhead : ∀ c, (normalizeText s).head? = some c → isSpaceJS c = false :=
    fun c hc => trimStr_head_not_space _ c hc
  have hlast : ∀ c, (normalizeText s).getLast? = some c → isSpaceJS c = false :=
    fun c hc => trimStr_getLast_not_space _ c hc
  have hcollapse : collapseWs (normalizeText s) = normalizeText s := by
    unfold collapseWs
    exact (collapseAux_fix (normalizeText s)
      (fun c hc hsp => (hmem c hc).2.2.2.2 hsp) hchain).1
  conv_lhs => rw [normalizeText]
  rw [h1, h2, h3, h4, hcollapse]
  exact trimStr_fix _ hhead hlast

/-- C5: the text normalizer is idempotent. -/
theorem normalizeText_idempotent :
    ∀ s : Str, normalizeText (normalizeText s) = normalizeText s :=
  fun s => normalizeText_idem s

/-! ## Query expansion lemmas (C7, C10) -/

theorem alias_normalized_nonempty :
    ∀ (t a : Str), a ∈ QUERY_ALIASES t → normalizeText a ≠ [] := by
  have H : ∀ p ∈ QUERY_ALIAS_TABLE, ∀ a ∈ p.2, normalizeText a ≠ [] := by decide
  intro t a h
  unfold QUERY_ALIASES at h
  cases hf : QUERY_ALIAS_TABLE.find? (fun p => p.1 == t) with
  | none => rw [hf] at h; exact absurd h (List.not_mem_nil a)
  | some p =>
    rw [hf] at h
    exact H p (List.mem_of_find?_eq_some hf) a h

theorem mem_setAdd {l : List Str} {x y : Str} :
    y ∈ setAdd l x ↔ y ∈ l ∨ y = x := by
  unfold setAdd
  by_cases h : x ∈ l
  · rw [if_pos h]
    constructor
    · exact Or.inl
    · rintro (hy | rfl)
      · exact hy
      · exact h
  · rw [if_neg h]
    simp

theorem mem_foldl_setAdd : ∀ (toks : List Str) (init : List Str) (y : Str),
    y ∈ toks.foldl setAdd init ↔ y ∈ init ∨ y ∈ toks := by
  intro toks
  induction toks with
  | nil => simp
  | cons t ts ih =>
    intro init y
    rw [List.foldl_cons, ih, mem_setAdd]
    constructor
    · rintro ((hy | rfl) | hy)
      · exact Or.inl hy
      · exact Or.inr (List.mem_cons_self _ _)
      · exact Or.inr (List.mem_cons_of_mem _ hy)
    · rintro (hy | hy)
      · exact Or.inl (Or.inl hy)
      · rcases List.mem_cons.mp hy with rfl | hy'
        · exact Or.inl (Or.inr rfl)
        · exact Or.inr hy'

theorem mem_aliasFold : ∀ (aliases : List Str) (acc : List Str) (y : Str),
    y ∈ aliases.foldl (fun acc2 aliasWord =>
        let aliasNormalized := normalizeText aliasWord
        if aliasNormalized.isEmpty then acc2 else setAdd acc2 aliasNormalized) acc ↔
      y ∈ acc ∨ ∃ a ∈ aliases, y = normalizeText a ∧ normalizeText a ≠ [] := by
  intro aliases
  induction aliases with
  | nil => simp
  | cons a as ih =>
    intro acc y
    rw [List.foldl_cons]
    by_cases h : (normalizeText a).isEmpty
    · have hstep : (let aliasNormalized := normalizeText a;
          if aliasNormalized.isEmpty then acc else setAdd acc aliasNormalized) = acc := by
        simp [h]
      rw [hstep, ih]
      have hempty : normalizeText a = [] := List.isEmpty_iff.mp h
      constructor
      · rintro (hy | ⟨b, hb, hy, hne⟩)
        · exact Or.inl hy
        · exact Or.inr ⟨b, List.mem_cons_of_mem a hb, hy, hne⟩
      · rintro (hy | ⟨b, hb, hy, hne⟩)
        · exact Or.inl hy
        · rcases List.mem_cons.mp hb with rfl | hb'
          · exact absurd hempty hne
          · exact Or.inr ⟨b, hb', hy, hne⟩
    · have hne : normalizeText a ≠ [] := fun h0 => h (List.isEmpty_iff.mpr h0)
      have hstep : (let aliasNormalized := normalizeText a;
          if aliasNormalized.isEmpty then acc else setAdd acc aliasNormalized) =
          setAdd acc (normalizeText a) := by
        simp [h]
      rw [hstep, ih]
      constructor
      · rintro (hy | ⟨b, hb, hy, hbne⟩)
        · rcases mem_setAdd.mp hy with hy' | rfl
          · exact Or.inl hy'
          · exact Or.inr ⟨a, List.mem_cons_self a as, rfl, hne⟩
        · exact Or.inr ⟨b, List.mem_cons_of_mem a hb, hy, hbne⟩
      · rintro (hy | ⟨b, hb, hy, hbne⟩)
        · exact Or.inl (mem_setAdd.mpr (Or.inl hy))
        · rcases List.mem_cons.mp hb with rfl | hb'
          · subst hy
            exact Or.inl (mem_setAdd.mpr (Or.inr rfl))
          · exact Or.inr ⟨b, hb', hy, hbne⟩

theorem mem_outerFold : ∀ (roots : List Str) (acc : List Str) (y : Str),
    y ∈ roots.foldl (fun acc token =>
        (QUERY_ALIASES token).foldl (fun acc2 aliasWord =>
          let aliasNormalized := normalizeText aliasWord
          if aliasNormalized.isEmpty then acc2 else setAdd acc2 aliasNormalized)
          acc) acc ↔
      y ∈ acc ∨ ∃ t ∈ roots, ∃ a ∈ QUERY_ALIASES t,
        y = normalizeText a ∧ normalizeText a ≠ [] := by
  intro roots
  induction roots with
  | nil => simp
  | cons r rs ih =>
    intro acc y
    rw [List.foldl_cons, ih, mem_aliasFold]
    constructor
    · rintro ((hy | ⟨a, ha, hy, hne⟩) | ⟨t, ht, a, ha, hy, hne⟩)
      · exact Or.inl hy
      · exact Or.inr ⟨r, List.mem_cons_self r rs, a, ha, hy, hne⟩
      · exact Or.inr ⟨t, List.mem_cons_of_mem r ht, a, ha, hy, hne⟩
    · rintro (hy | ⟨t, ht, a, ha, hy, hne⟩)
      · exact Or.inl (Or.inl hy)
      · rcases List.mem_cons.mp ht with rfl | ht'
        · exact Or.inl (Or.inr ⟨a, ha, hy, hne⟩)
        · exact Or.inr ⟨t, ht', a, ha, hy, hne⟩

theorem mem_buildQueryTokens (queryText y : Str) :
    y ∈ buildQueryTokens queryText ↔
      y ∈ rootQueryTokens queryText ∨
        ∃ t ∈ rootQueryTokens queryText, ∃ a ∈ QUERY_ALIASES t,
          y = normalizeText a := by
  unfold buildQueryTokens
  rw [mem_outerFold, mem_foldl_setAdd]
  simp only [List.not_mem_nil, false_or]
  constructor
  · rintro (h | ⟨t, ht, a, ha, hy, _⟩)
    · exact Or.inl h
    · exact Or.inr ⟨t, ht, a, ha, hy⟩
  · rintro (h | ⟨t, ht, a, ha, hy⟩)
    · exact Or.inl h
    · exact Or.inr ⟨t, ht, a, ha, hy, alias_normalized_nonempty t a ha⟩

theorem splitAcc_filter_ne_nil : ∀ (s : Str) (acc : Str), acc ≠ [] →
    (splitOnSpaceAcc acc s).filter (fun t => !t.isEmpty) ≠ [] := by
  intro s
  induction s with
  | nil =>
    intro acc hacc
    have hrev : acc.reverse.isEmpty = false := by
      rw [Bool.eq_false_iff]
      simpa [List.isEmpty_iff] using hacc
    simp [splitOnSpaceAcc, List.filter, hrev]
  | cons c r ih =>
    intro acc hacc
    by_cases hc : c = ' '
    · subst hc
      have hrev : acc.reverse.isEmpty = false := by
        rw [Bool.eq_false_iff]
        simpa [List.isEmpty_iff] using hacc
      simp [splitOnSpaceAcc, List.filter_cons, hrev]
    · have hr := ih (c :: acc) (by simp)
      simpa [splitOnSpaceAcc, hc] using hr

theorem normalizeText_head_not_space (q : Str) :
    ∀ c, (normalizeText q).head? = some c → isSpaceJS c = false := by
  intro c hc
  unfold normalizeText at hc
  exact trimStr_head_not_space _ c hc

theorem tokenizeWords_ne_nil (q : Str) (h : normalizeText q ≠ []) :
    tokenizeWords q ≠ [] := by
  unfold tokenizeWords
  cases hn : normalizeText q with
  | nil => exact absurd hn h
  | cons c rest =>
    have hc : isSpaceJS c = false :=
      normalizeText_head_not_space q c (by rw [hn]; rfl)
    have hc' : ¬(c = ' ') := by
      rintro rfl
      exact absurd hc (by decide)
    show (splitOnSpaceAcc [] (c :: rest)).filter (fun t => !t.isEmpty) ≠ []
    rw [show splitOnSpaceAcc [] (c :: rest) = splitOnSpaceAcc [c] rest from by
      simp [splitOnSpaceAcc, hc']]
    exact splitAcc_filter_ne_nil rest [c] (by simp)

theorem rootQueryTokens_ne_nil {q : Str}
    (h : tokenizeWords (normalizeText q) ≠ []) : rootQueryTokens q ≠ [] := by
  unfold rootQueryTokens
  by_cases hb : ((tokenizeWords (normalizeText q)).filter
      (fun t => !QUERY_STOP_WORDS.contains t)).length > 0
  · simp only [hb, if_true]
    exact List.length_pos.mp hb
  · simp only [hb, if_false]
    exact h

theorem buildQueryTokens_ne_nil {q : Str} (h : normalizeText q ≠ []) :
    buildQueryTokens q ≠ [] := by
  have htok : tokenizeWords (normalizeText q) ≠ [] := by
    apply tokenizeWords_ne_nil
    rw [normalizeText_idem]
    exact h
  have hroot : rootQueryTokens q ≠ [] := rootQueryTokens_ne_nil htok
  obtain ⟨y, hy⟩ := List.exists_mem_of_ne_nil _ hroot
  intro h0
  have : y ∈ buildQueryTokens q := (mem_buildQueryTokens q y).mpr (Or.inl hy)
  rw [h0] at this
  exact absurd this (List.not_mem_nil y)

/-- C7: the query expander drops exactly the stop-word tokens, falls back
to the unfiltered token list exactly when every token is a stop word, and
returns the union of the root tokens with the normalized aliases of each
root token — hence a stop-word-only query still yields a non-empty token
set. -/
theorem buildQueryTokens_expansion :
    (∀ queryText t : Str,
        (t ∈ (tokenizeWords (normalizeText queryText)).filter
            (fun x => !QUERY_STOP_WORDS.contains x)) ↔
          (t ∈ tokenizeWords (normalizeText queryText) ∧ t ∉ QUERY_STOP_WORDS)) ∧
    (∀ queryText : Str,
        (∀ t ∈ tokenizeWords (normalizeText queryText), t ∈ QUERY_STOP_WORDS) →
        rootQueryTokens queryText = tokenizeWords (normalizeText queryText)) ∧
    (∀ queryText : Str,
        (∃ t ∈ tokenizeWords (normalizeText queryText), t ∉ QUERY_STOP_WORDS) →
        rootQueryTokens queryText =
          (tokenizeWords (normalizeText queryText)).filter
            (fun x => !QUERY_STOP_WORDS.contains x)) ∧
    (∀ queryText y : Str, y ∈ buildQueryTokens queryText ↔
        (y ∈ rootQueryTokens queryText ∨
          ∃ t ∈ rootQueryTokens queryText, ∃ a ∈ QUERY_ALIASES t,
            y = normalizeText a)) ∧
    (∀ queryText : Str, tokenizeWords (normalizeText queryText) ≠ [] →
        buildQueryTokens queryText ≠ []) := by
  refine ⟨?_, ?_, ?_, mem_buildQueryTokens, ?_⟩
  · intro queryText t
    rw [List.mem_filter]
    simp [List.elem_iff]
  · intro queryText hall
    simp only [rootQueryTokens]
    have hbase : (tokenizeWords (normalizeText queryText)).filter
        (fun t => !QUERY_STOP_WORDS.contains t) = [] := by
      rw [List.filter_eq_nil_iff]
      intro t ht
      simp [List.elem_iff, hall t ht]
    rw [hbase]
    simp
  · intro queryText hex
    obtain ⟨t, ht, hstop⟩ := hex
    simp only [rootQueryTokens]
    have hmem : t ∈ (tokenizeWords (normalizeText queryText)).filter
        (fun t => !QUERY_STOP_WORDS.contains t) := by
      rw [List.mem_filter]
      exact ⟨ht, by simpa [List.elem_iff] using hstop⟩
    rw [if_pos (List.length_pos.mpr (fun h0 => by rw [h0] at hmem; simp at hmem))]
  · intro queryText htok
    have hroot : rootQueryTokens queryText ≠ [] := rootQueryTokens_ne_nil htok
    obtain ⟨y, hy⟩ := List.exists_mem_of_ne_nil _ hroot
    intro h0
    have : y ∈ buildQueryTokens queryText :=
      (mem_buildQueryTokens queryText y).mpr (Or.inl hy)
    rw [h0] at this
    exact absurd this (List.not_mem_nil y)

/-- Concrete instantiation: the stop-word-only query "dua" falls back to
its unfiltered token list. -/
theorem buildQueryTokens_expansion_witness :
    (∀ t ∈ tokenizeWords (normalizeText (str "dua")), t ∈ QUERY_STOP_WORDS) ∧
    rootQueryTokens (str "dua") = tokenizeWords (normalizeText (str "dua")) :=
  ⟨by decide, buildQueryTokens_expansion.2.1 (str "dua") (by decide)⟩

/-- C10: a query whose normalization is non-empty always produces a
non-empty expanded token list, so the empty-token rejection branch of
`searchDuaMaster` is unreachable there (the guard reduces to the
supplier/ranking path), and the search rejects for emptiness exactly when
the normalization is empty. -/
theorem query_rejection_characterization :
    (∀ q : Str, normalizeText q ≠ [] → buildQueryTokens q ≠ []) ∧
    (∀ q : Str, normalizeText q ≠ [] → buildQueryTokens (normalizeText q) ≠ []) ∧
    (∀ (q : Str) (supplier : Except Unit (Option (List Dua)))
        (options : SearchOptions), normalizeText q ≠ [] →
        searchDuaMaster q supplier options =
          (match supplier with
            | .error e => .error e
            | .ok none => .ok []
            | .ok (some masterRows) =>
              if masterRows.length = 0 then .ok []
              else .ok (searchCore (normalizeText q)
                (buildQueryTokens (normalizeText q)) masterRows
                (effectiveLimit options)))) ∧
    (∀ (q : Str) (supplier : Except Unit (Option (List Dua)))
        (options : SearchOptions), normalizeText q = [] →
        searchDuaMaster q supplier options = .ok []) := by
  have hb : ∀ q : Str, normalizeText q ≠ [] → buildQueryTokens (normalizeText q) ≠ [] := by
    intro q h
    apply buildQueryTokens_ne_nil
    rw [normalizeText_idem]
    exact h
  refine ⟨fun q h => buildQueryTokens_ne_nil h, hb, ?_, ?_⟩
  · intro q supplier options h
    have h1 : (normalizeText q).isEmpty = false := by
      rw [Bool.eq_false_iff]
      simpa [List.isEmpty_iff] using h
    have h2 : (buildQueryTokens (normalizeText q)).isEmpty = false := by
      rw [Bool.eq_false_iff]
      simpa [List.isEmpty_iff] using hb q h
    simp only [searchDuaMaster]
    rw [h1, h2]
    simp
  · intro q supplier options h
    simp [searchDuaMaster, h]

/-- Concrete instantiation: the query "sleep" normalizes non-trivially
and yields a non-empty expanded token set. -/
theorem query_rejection_characterization_witness :
    normalizeText (str "sleep") ≠ [] ∧ buildQueryTokens (str "sleep") ≠ [] :=
  ⟨by decide, query_rejection_characterization.1 (str "sleep") (by decide)⟩

end Tafseer
